import Mathlib

/-!
ThreadPool.h: a shallow embedding and its verified properties

The pool of `src/ThreadPool.h` is embedded as a transition system.  Every block
of the source that runs under `queue_mutex` is one atomic transition:

* `ThreadPool.ctor`     — the constructor (lines 34-62),
* `ThreadPool.enqueue`  — `enqueue` (lines 65-78),
* `ThreadPool.fetch`    — the locked block of the worker loop (lines 46-56),
* `ThreadPool.dtor`     — the locked block of the destructor (lines 83-86).

`size_t` values are natural numbers reduced modulo `2 ^ 64` at every
increment and decrement.  A task (`std::function<void(size_t)>`) is a value of
an arbitrary type `τ`; the pool never inspects it.
-/

namespace ThreadPoolModel

/-- Width of `size_t`: arithmetic on the counter is modulo this number. -/
def SIZE_MOD : Nat := 2 ^ 64

/-- Control state of one worker thread, i.e. where it stands in the loop of
lines 42-59: before or inside the locked block (`waiting`), past the locked
block with a task moved out of the queue and not yet returned from `task(i)`
(`holding`), or after `return` (`exited`). -/
inductive WorkerState (τ : Type) where
  | waiting : WorkerState τ
  | holding : τ → WorkerState τ
  | exited : WorkerState τ
  deriving DecidableEq, Repr

/-- One element of `workers`: the closure `[i, this]{...}` with its captured
index `i` and its control state. -/
structure Worker (τ : Type) where
  i : Nat
  pc : WorkerState τ
  deriving DecidableEq, Repr

/-- The data members of `class ThreadPool` (lines 22-30).  `tasks` is the
`std::queue`, front of the queue first. -/
structure ThreadPool (τ : Type) where
  workers : List (Worker τ)
  tasks : List τ
  task_queue_size : Nat
  stop : Bool
  deriving DecidableEq, Repr

/-- The loop `for(i = 0; i < threads; ++i) workers.emplace_back([i, this]{...})`
of lines 38-61: `n` iterations remain, the loop variable is `i`.  The body
runs with `i < threads`, so `++i` never exceeds `threads` and does not wrap. -/
def spawn {τ : Type} : Nat → Nat → List (Worker τ) → List (Worker τ)
  | 0, _, ws => ws
  | n + 1, i, ws => spawn n (i + 1) (ws ++ [{ i := i, pc := WorkerState.waiting }])

/-- Constructor `ThreadPool::ThreadPool(size_t threads)`, lines 34-62. -/
def ThreadPool.ctor {τ : Type} (threads : Nat) : ThreadPool τ :=
  { workers := spawn threads 0 [], tasks := [], task_queue_size := 0, stop := false }

/-- Method `queue_size()`, line 18. -/
def ThreadPool.queue_size {τ : Type} (p : ThreadPool τ) : Nat :=
  p.task_queue_size

/-- Method `enqueue`, lines 65-78: throws when `stop` is set, otherwise
`tasks.emplace(f); task_queue_size++`. -/
def ThreadPool.enqueue {τ : Type} (p : ThreadPool τ) (f : τ) : Except String (ThreadPool τ) :=
  if p.stop then
    Except.error "enqueue on stopped ThreadPool"
  else
    Except.ok { p with
      tasks := p.tasks ++ [f]
      task_queue_size := (p.task_queue_size + 1) % SIZE_MOD }

/-- What the locked block of the worker loop (lines 46-56) does when it is
entered in a given pool state. -/
inductive Fetch (τ : Type) where
  /-- Call `condition.wait(lock)`: the loop of line 48 is not left. -/
  | wait : Fetch τ
  /-- Statement `return` of line 52. -/
  | ret : Fetch τ
  /-- Lines 53-55 ran: the task moved out of the queue and the new pool state. -/
  | task : τ → ThreadPool τ → Fetch τ
  /-- Calls `front()` and `pop()` on an empty queue. -/
  | undefined : Fetch τ
  deriving DecidableEq, Repr

/-- The locked block of the worker loop, lines 46-56. -/
def ThreadPool.fetch {τ : Type} (p : ThreadPool τ) : Fetch τ :=
  if !p.stop && p.tasks.isEmpty then
    Fetch.wait
  else if p.stop && p.tasks.isEmpty then
    Fetch.ret
  else
    match p.tasks with
    | [] => Fetch.undefined
    | t :: rest =>
      Fetch.task t { p with
        tasks := rest
        task_queue_size := (p.task_queue_size + SIZE_MOD - 1) % SIZE_MOD }

/-- The locked block of the destructor, lines 83-86: `stop = true`. -/
def ThreadPool.dtor {τ : Type} (p : ThreadPool τ) : ThreadPool τ :=
  { p with stop := true }

/-- The loop `for(worker : workers) worker.join()` of lines 88-89 returns
exactly when every worker thread has returned. -/
def ThreadPool.joined {τ : Type} [DecidableEq τ] (p : ThreadPool τ) : Bool :=
  p.workers.all (fun w => decide (w.pc = WorkerState.exited))

/-- The pool together with its history: the tasks `enqueue` accepted, in the
order it accepted them; the dequeues, each with the position in `workers` of
the thread that performed it; the calls `task(i)` that have returned, each
with the argument that was passed. -/
structure Sys (τ : Type) where
  pool : ThreadPool τ
  accepted : List τ
  dequeued : List (Nat × τ)
  invoked : List (Nat × τ)
  deriving DecidableEq, Repr

/-- State right after construction with `threads` workers. -/
def Sys.init {τ : Type} (threads : Nat) : Sys τ :=
  { pool := ThreadPool.ctor threads, accepted := [], dequeued := [], invoked := [] }

/-- The atomic transitions: a call of `enqueue` from any thread, one move of
the worker thread at position `k` of `workers`, the destructor taking the lock. -/
inductive Action (τ : Type) where
  | enqueue : τ → Action τ
  | worker : Nat → Action τ
  | shutdown : Action τ
  deriving DecidableEq, Repr

/-- One move of the worker at position `k`: a waiting worker runs the locked
block (and stays, returns, or leaves with a task); a worker that holds a task
completes `task(i)` and goes back to the head of the loop.  A thread that has
returned, or a position outside `workers`, has no move. -/
def workerStep {τ : Type} (s : Sys τ) (k : Nat) : Option (Sys τ) :=
  match s.pool.workers[k]? with
  | none => none
  | some w =>
    match w.pc with
    | WorkerState.exited => none
    | WorkerState.holding t =>
      some { s with
        pool := { s.pool with workers := s.pool.workers.set k { w with pc := WorkerState.waiting } }
        invoked := s.invoked ++ [(w.i, t)] }
    | WorkerState.waiting =>
      match s.pool.fetch with
      | Fetch.wait => some s
      | Fetch.ret =>
        some { s with
          pool := { s.pool with workers := s.pool.workers.set k { w with pc := WorkerState.exited } } }
      | Fetch.task t p =>
        some { s with
          pool := { p with workers := p.workers.set k { w with pc := WorkerState.holding t } }
          dequeued := s.dequeued ++ [(k, t)] }
      | Fetch.undefined => none

/-- One atomic transition of the system.  A call of `enqueue` that throws
leaves the state as it was. -/
def step {τ : Type} (s : Sys τ) : Action τ → Option (Sys τ)
  | Action.enqueue f =>
    match s.pool.enqueue f with
    | Except.ok p => some { s with pool := p, accepted := s.accepted ++ [f] }
    | Except.error _ => some s
  | Action.worker k => workerStep s k
  | Action.shutdown => some { s with pool := s.pool.dtor }

/-- Run a schedule: a sequence of atomic transitions, in order. -/
def run {τ : Type} (s : Sys τ) : List (Action τ) → Option (Sys τ)
  | [] => some s
  | a :: rest =>
    match step s a with
    | none => none
    | some s1 => run s1 rest

/-- States the pool with `threads` workers can be in between two locked blocks. -/
def Reachable {τ : Type} (threads : Nat) (s : Sys τ) : Prop :=
  ∃ sched : List (Action τ), run (Sys.init threads) sched = some s

/-- The tasks that have been moved out of the queue and whose call `task(i)`
has not returned yet, each with the index its worker will pass. -/
def held {τ : Type} (ws : List (Worker τ)) : List (Nat × τ) :=
  ws.filterMap (fun w =>
    match w.pc with
    | WorkerState.holding t => some (w.i, t)
    | _ => none)

/-- The invariant of the reachable states of a pool built with `threads`
workers. -/
structure Inv {τ : Type} (threads : Nat) (s : Sys τ) : Prop where
  /-- The worker at position `k` captured `i = k`. -/
  ids : s.pool.workers.map Worker.i = List.range threads
  /-- The counter is the queue length, as a `size_t`. -/
  size : s.pool.task_queue_size = s.pool.tasks.length % SIZE_MOD
  /-- Dequeues happen in the order of acceptance. -/
  fifo : s.accepted = s.dequeued.map Prod.snd ++ s.pool.tasks
  /-- A dequeued task has been run or is held by the worker that took it. -/
  owned : List.Perm s.dequeued (s.invoked ++ held s.pool.workers)
  /-- Once a worker has returned, the pool is stopped and the queue is empty. -/
  drained : (∃ w ∈ s.pool.workers, w.pc = WorkerState.exited) →
    s.pool.stop = true ∧ s.pool.tasks = []
  /-- A single worker runs the tasks in the order it dequeued them. -/
  single : threads = 1 → s.dequeued = s.invoked ++ held s.pool.workers
  /-- Every dequeue was performed by one of the `threads` workers. -/
  bound : ∀ p ∈ s.dequeued, p.1 < threads

/-- Worker moves a thread still has to make before it has returned, when no
task is queued: none after `return`, one when waiting, two when it holds a
task. -/
def Worker.weight {τ : Type} (w : Worker τ) : Nat :=
  match w.pc with
  | WorkerState.exited => 0
  | WorkerState.waiting => 1
  | WorkerState.holding _ => 2

/-- A bound on the number of worker moves left once stop is set: every queued
task costs a dequeue and a call and delays one return. -/
def Sys.pending {τ : Type} (s : Sys τ) : Nat :=
  3 * s.pool.tasks.length + (s.pool.workers.map Worker.weight).sum

/-! ## Concrete runs used as examples -/

/-- Two workers, three tasks, run to completion: tasks 10 and 11 are
submitted, worker 0 takes 10, task 12 is submitted, worker 1 takes 11,
worker 0 finishes 10, the destructor sets stop, worker 0 takes and finishes 12,
worker 1 finishes 11, both workers return. -/
def demoSched : List (Action Nat) :=
  [Action.enqueue 10, Action.enqueue 11, Action.worker 0, Action.enqueue 12,
   Action.worker 1, Action.worker 0, Action.shutdown, Action.worker 0,
   Action.worker 1, Action.worker 0, Action.worker 1, Action.worker 0]

/-- State at the end of `demoSched`. -/
def demoDone : Sys Nat :=
  { pool :=
      { workers := [{ i := 0, pc := WorkerState.exited }, { i := 1, pc := WorkerState.exited }]
        tasks := []
        task_queue_size := 0
        stop := true }
    accepted := [10, 11, 12]
    dequeued := [(0, 10), (1, 11), (0, 12)]
    invoked := [(0, 10), (1, 11), (0, 12)] }

/-- The first six transitions of `demoSched`. -/
def demoMidSched : List (Action Nat) :=
  [Action.enqueue 10, Action.enqueue 11, Action.worker 0, Action.enqueue 12,
   Action.worker 1, Action.worker 0]

/-- State after `demoMidSched`: task 10 has run, worker 1 holds task 11, task
12 is queued. -/
def demoMid : Sys Nat :=
  { pool :=
      { workers := [{ i := 0, pc := WorkerState.waiting }, { i := 1, pc := WorkerState.holding 11 }]
        tasks := [12]
        task_queue_size := 1
        stop := false }
    accepted := [10, 11, 12]
    dequeued := [(0, 10), (1, 11)]
    invoked := [(0, 10)] }

/-- One worker, tasks 1, 2, 3 submitted before the worker dequeues any, run to
completion. -/
def oneSched : List (Action Nat) :=
  [Action.enqueue 1, Action.enqueue 2, Action.enqueue 3, Action.worker 0, Action.worker 0,
   Action.worker 0, Action.worker 0, Action.worker 0, Action.worker 0, Action.shutdown,
   Action.worker 0]

/-- State at the end of `oneSched`. -/
def oneDone : Sys Nat :=
  { pool :=
      { workers := [{ i := 0, pc := WorkerState.exited }]
        tasks := []
        task_queue_size := 0
        stop := true }
    accepted := [1, 2, 3]
    dequeued := [(0, 1), (0, 2), (0, 3)]
    invoked := [(0, 1), (0, 2), (0, 3)] }

/-- No worker, two tasks submitted. -/
def zeroSched : List (Action Nat) :=
  [Action.enqueue 7, Action.enqueue 8]

/-- State after `zeroSched`. -/
def zeroMid : Sys Nat :=
  { pool := { workers := [], tasks := [7, 8], task_queue_size := 2, stop := false }
    accepted := [7, 8]
    dequeued := []
    invoked := [] }

/-- Two workers; task 10 is submitted and taken by worker 1, then the
destructor sets stop. -/
def stopSched : List (Action Nat) :=
  [Action.enqueue 10, Action.worker 1, Action.shutdown]

/-- State after `stopSched`. -/
def stopMid : Sys Nat :=
  { pool :=
      { workers := [{ i := 0, pc := WorkerState.waiting }, { i := 1, pc := WorkerState.holding 10 }]
        tasks := []
        task_queue_size := 0
        stop := true }
    accepted := [10]
    dequeued := [(1, 10)]
    invoked := [] }

/-- State after `stopSched`, a rejected `enqueue(99)` and the remaining worker
moves. -/
def stopDone : Sys Nat :=
  { pool :=
      { workers := [{ i := 0, pc := WorkerState.exited }, { i := 1, pc := WorkerState.exited }]
        tasks := []
        task_queue_size := 0
        stop := true }
    accepted := [10]
    dequeued := [(1, 10)]
    invoked := [(1, 10)] }

/-- A running pool with one queued task. -/
def demoPool : ThreadPool Nat :=
  { workers := [{ i := 0, pc := WorkerState.waiting }]
    tasks := [5]
    task_queue_size := 1
    stop := false }

/-! ## Lists of workers -/

theorem spawn_eq {τ : Type} (n i : Nat) (ws : List (Worker τ)) :
    spawn n i ws
      = ws ++ (List.range' i n).map (fun j => { i := j, pc := WorkerState.waiting }) := by
  induction n generalizing i ws with
  | zero => simp [spawn]
  | succ n ih => simp [spawn, ih, List.range'_succ]

theorem ctor_workers {τ : Type} (threads : Nat) :
    (ThreadPool.ctor threads : ThreadPool τ).workers
      = (List.range threads).map (fun j => { i := j, pc := WorkerState.waiting }) := by
  simp [ThreadPool.ctor, spawn_eq, List.range_eq_range']

/-- Splitting `workers` around position `k`. -/
theorem set_split {α : Type} (ws : List α) (k : Nat) (w : α) (h : ws[k]? = some w) :
    ∃ a b, ws = a ++ w :: b ∧ a.length = k ∧ ∀ v, ws.set k v = a ++ v :: b := by
  induction ws generalizing k with
  | nil => simp at h
  | cons x xs ih =>
    cases k with
    | zero =>
      simp at h
      exact ⟨[], xs, by simp [h], rfl, fun v => by simp⟩
    | succ k =>
      simp at h
      obtain ⟨a, b, hab, hlen, hset⟩ := ih k h
      refine ⟨x :: a, b, by simp [hab], by simp [hlen], fun v => ?_⟩
      simp [hset v]

theorem held_append {τ : Type} (a b : List (Worker τ)) : held (a ++ b) = held a ++ held b := by
  simp [held]

theorem held_cons_waiting {τ : Type} (w : Worker τ) (b : List (Worker τ))
    (h : w.pc = WorkerState.waiting) : held (w :: b) = held b := by
  simp [held, List.filterMap_cons, h]

theorem held_cons_exited {τ : Type} (w : Worker τ) (b : List (Worker τ))
    (h : w.pc = WorkerState.exited) : held (w :: b) = held b := by
  simp [held, List.filterMap_cons, h]

theorem held_cons_holding {τ : Type} (w : Worker τ) (b : List (Worker τ)) (t : τ)
    (h : w.pc = WorkerState.holding t) : held (w :: b) = (w.i, t) :: held b := by
  simp [held, List.filterMap_cons, h]

/-! ## The locked block of the worker loop -/

theorem fetch_cases {τ : Type} (p : ThreadPool τ) :
    (p.tasks = [] ∧ p.stop = false ∧ p.fetch = Fetch.wait) ∨
    (p.tasks = [] ∧ p.stop = true ∧ p.fetch = Fetch.ret) ∨
    (∃ t rest, p.tasks = t :: rest ∧
      p.fetch = Fetch.task t { p with
        tasks := rest
        task_queue_size := (p.task_queue_size + SIZE_MOD - 1) % SIZE_MOD }) := by
  cases hq : p.tasks with
  | nil =>
    cases hs : p.stop with
    | false => left; simp [ThreadPool.fetch, hq, hs]
    | true => right; left; simp [ThreadPool.fetch, hq, hs]
  | cons t rest =>
    right; right
    refine ⟨t, rest, rfl, ?_⟩
    cases hs : p.stop <;> simp [ThreadPool.fetch, hq, hs]

theorem queue_size_def {τ : Type} (p : ThreadPool τ) : p.queue_size = p.task_queue_size := rfl

theorem size_mod_pos : 0 < SIZE_MOD := by
  unfold SIZE_MOD; norm_num

theorem succ_mod_size (n : Nat) : (n % SIZE_MOD + 1) % SIZE_MOD = (n + 1) % SIZE_MOD := by
  simp [Nat.add_mod]

theorem pred_mod_size (n : Nat) :
    ((n + 1) % SIZE_MOD + SIZE_MOD - 1) % SIZE_MOD = n % SIZE_MOD := by
  have h : (n + 1) % SIZE_MOD < SIZE_MOD := Nat.mod_lt _ size_mod_pos
  have h1 : ((n + 1) % SIZE_MOD + SIZE_MOD - 1) = ((n + 1) % SIZE_MOD + (SIZE_MOD - 1)) := by
    have := size_mod_pos
    omega
  rw [h1, Nat.add_mod, Nat.mod_mod, ← Nat.add_mod]
  have h2 : n + 1 + (SIZE_MOD - 1) = n + SIZE_MOD := by
    have := size_mod_pos
    omega
  rw [h2, Nat.add_mod_right]

/-! ## The invariant holds in every reachable state -/

theorem held_all_waiting {τ : Type} (l : List Nat) :
    held (l.map (fun j => ({ i := j, pc := WorkerState.waiting } : Worker τ))) = [] := by
  induction l with
  | nil => rfl
  | cons x xs ih => simp [held]

theorem inv_init {τ : Type} (threads : Nat) : Inv threads (Sys.init threads : Sys τ) := by
  refine ⟨?_, ?_, ?_, ?_, ?_, ?_, ?_⟩
  · simp [Sys.init, ctor_workers, Function.comp_def]
  · simp [Sys.init, ThreadPool.ctor]
  · simp [Sys.init, ThreadPool.ctor]
  · simp [Sys.init, ctor_workers, held_all_waiting]
  · rintro ⟨w, hw, hpc⟩
    simp [Sys.init, ctor_workers] at hw
    obtain ⟨j, _, rfl⟩ := hw
    simp at hpc
  · intro _
    simp [Sys.init, ctor_workers, held_all_waiting]
  · simp [Sys.init]

theorem inv_enqueue {τ : Type} (threads : Nat) (s s1 : Sys τ) (f : τ)
    (hinv : Inv threads s) (hstep : step s (Action.enqueue f) = some s1) : Inv threads s1 := by
  cases hs : s.pool.stop with
  | true =>
    have : s1 = s := by
      simp [step, ThreadPool.enqueue, hs] at hstep
      exact hstep.symm
    rw [this]; exact hinv
  | false =>
    simp [step, ThreadPool.enqueue, hs] at hstep
    subst hstep
    refine ⟨hinv.ids, ?_, ?_, hinv.owned, ?_, hinv.single, hinv.bound⟩
    · simp only [hinv.size, List.length_append, List.length_singleton]
      exact succ_mod_size _
    · simp [hinv.fifo]
    · intro hex
      have := (hinv.drained hex).1
      simp [hs] at this

theorem inv_shutdown {τ : Type} (threads : Nat) (s s1 : Sys τ)
    (hinv : Inv threads s) (hstep : step s Action.shutdown = some s1) : Inv threads s1 := by
  simp [step, ThreadPool.dtor] at hstep
  subst hstep
  refine ⟨hinv.ids, hinv.size, hinv.fifo, hinv.owned, ?_, hinv.single, hinv.bound⟩
  intro hex
  exact ⟨rfl, (hinv.drained hex).2⟩

theorem ids_at {τ : Type} (threads : Nat) (ws : List (Worker τ)) (k : Nat) (w : Worker τ)
    (hids : ws.map Worker.i = List.range threads) (hk : ws[k]? = some w) :
    w.i = k ∧ k < threads := by
  have h1 : (ws.map Worker.i)[k]? = some w.i := by simp [hk]
  rw [hids] at h1
  obtain ⟨hlt, hval⟩ := List.getElem?_eq_some.mp h1
  simp at hlt hval
  exact ⟨hval.symm, hlt⟩

theorem single_worker {τ : Type} (ws a b : List (Worker τ)) (w : Worker τ)
    (hids : ws.map Worker.i = List.range 1) (hab : ws = a ++ w :: b) : a = [] ∧ b = [] := by
  have hlen : ws.length = 1 := by
    have := congrArg List.length hids
    simpa using this
  rw [hab] at hlen
  simp at hlen
  have ha : a.length = 0 := by omega
  have hb : b.length = 0 := by omega
  exact ⟨List.length_eq_zero.mp ha, List.length_eq_zero.mp hb⟩

theorem inv_worker {τ : Type} (threads : Nat) (s s1 : Sys τ) (k : Nat)
    (hinv : Inv threads s) (hstep : workerStep s k = some s1) : Inv threads s1 := by
  unfold workerStep at hstep
  cases hk : s.pool.workers[k]? with
  | none => simp [hk] at hstep
  | some w =>
    obtain ⟨hwi, hkN⟩ := ids_at threads s.pool.workers k w hinv.ids hk
    obtain ⟨a, b, hab, -, hset⟩ := set_split s.pool.workers k w hk
    have hids := hinv.ids
    have howned := hinv.owned
    rw [hab] at hids howned
    cases hpc : w.pc with
    | exited => simp [hk, hpc] at hstep
    | holding t =>
      simp [hk, hpc] at hstep
      subst hstep
      have hheld : held (a ++ w :: b) = held a ++ (w.i, t) :: held b := by
        rw [held_append, held_cons_holding w b t hpc]
      refine ⟨?_, hinv.size, hinv.fifo, ?_, ?_, ?_, hinv.bound⟩
      · simp only [hset]
        simpa using hids
      · simp only [hset]
        rw [held_append, held_cons_waiting _ b rfl]
        rw [hheld] at howned
        refine howned.trans ?_
        rw [List.append_assoc]
        refine List.Perm.append_left _ ?_
        simp
      · rintro ⟨v, hv, hvpc⟩
        simp only [hset] at hv
        apply hinv.drained
        refine ⟨v, ?_, hvpc⟩
        rw [hab]
        simp only [List.mem_append, List.mem_cons] at hv ⊢
        rcases hv with hv | hv | hv
        · exact Or.inl hv
        · subst hv; simp at hvpc
        · exact Or.inr (Or.inr hv)
      · intro h1
        subst h1
        obtain ⟨ha, hb⟩ := single_worker s.pool.workers a b w hinv.ids hab
        subst ha; subst hb
        have h2 := hinv.single rfl
        rw [hab, hheld] at h2
        simp only [hset]
        rw [held_append, held_cons_waiting _ [] rfl]
        simpa [held] using h2
    | waiting =>
      have hheld : held (a ++ w :: b) = held a ++ held b := by
        rw [held_append, held_cons_waiting w b hpc]
      rcases fetch_cases s.pool with ⟨hq, hs, hf⟩ | ⟨hq, hs, hf⟩ | ⟨t, rest, hq, hf⟩
      · simp [hk, hpc, hf] at hstep
        subst hstep
        exact hinv
      · simp [hk, hpc, hf] at hstep
        subst hstep
        refine ⟨?_, hinv.size, hinv.fifo, ?_, fun _ => ⟨hs, hq⟩, ?_, hinv.bound⟩
        · simp only [hset]
          simpa using hids
        · simp only [hset]
          rw [held_append, held_cons_exited _ b rfl, ← hheld]
          exact howned
        · intro h1
          have h2 := hinv.single h1
          rw [hab, hheld] at h2
          simp only [hset]
          rw [held_append, held_cons_exited _ b rfl]
          exact h2
      · simp [hk, hpc, hf] at hstep
        subst hstep
        refine ⟨?_, ?_, ?_, ?_, ?_, ?_, ?_⟩
        · simp only [hset]
          simpa using hids
        · have h2 := hinv.size
          rw [hq] at h2
          simp only [h2, List.length_cons]
          exact pred_mod_size _
        · have h2 := hinv.fifo
          rw [hq] at h2
          simp [h2]
        · simp only [hset]
          rw [held_append, held_cons_holding _ b t rfl]
          rw [hheld] at howned
          have h3 : List.Perm (s.dequeued ++ [(k, t)]) ((k, t) :: (s.invoked ++ (held a ++ held b))) := by
            refine (List.perm_append_comm).trans ?_
            simpa using howned
          refine h3.trans ?_
          have h4 : s.invoked ++ (held a ++ (w.i, t) :: held b)
              = (s.invoked ++ held a) ++ (k, t) :: held b := by
            simp [hwi]
          simp only [h4]
          rw [← List.append_assoc]
          exact (List.perm_middle).symm
        · rintro ⟨v, hv, hvpc⟩
          simp only [hset] at hv
          have hno : ¬ ∃ u ∈ s.pool.workers, u.pc = WorkerState.exited := by
            intro hex
            have := (hinv.drained hex).2
            rw [hq] at this
            cases this
          refine absurd ?_ hno
          refine ⟨v, ?_, hvpc⟩
          rw [hab]
          simp only [List.mem_append, List.mem_cons] at hv ⊢
          rcases hv with hv | hv | hv
          · exact Or.inl hv
          · subst hv; simp at hvpc
          · exact Or.inr (Or.inr hv)
        · intro h1
          subst h1
          obtain ⟨ha, hb⟩ := single_worker s.pool.workers a b w hinv.ids hab
          subst ha; subst hb
          have h2 := hinv.single rfl
          rw [hab, hheld] at h2
          simp only [hset]
          rw [held_append, held_cons_holding _ [] t rfl]
          simp [held] at h2 ⊢
          simp [h2, hwi]
        · intro p hp
          simp only [List.mem_append, List.mem_singleton] at hp
          rcases hp with hp | hp
          · exact hinv.bound p hp
          · subst hp; exact hkN

theorem inv_step {τ : Type} (threads : Nat) (s s1 : Sys τ) (a : Action τ)
    (hinv : Inv threads s) (hstep : step s a = some s1) : Inv threads s1 := by
  cases a with
  | enqueue f => exact inv_enqueue threads s s1 f hinv hstep
  | worker k => exact inv_worker threads s s1 k hinv hstep
  | shutdown => exact inv_shutdown threads s s1 hinv hstep

theorem inv_run {τ : Type} (threads : Nat) (sched : List (Action τ)) (s s1 : Sys τ)
    (hinv : Inv threads s) (hrun : run s sched = some s1) : Inv threads s1 := by
  induction sched generalizing s with
  | nil =>
    simp [run] at hrun
    subst hrun
    exact hinv
  | cons a rest ih =>
    simp only [run] at hrun
    cases hst : step s a with
    | none => simp [hst] at hrun
    | some s2 =>
      simp only [hst] at hrun
      exact ih s2 (inv_step threads s s2 a hinv hst) hrun

theorem inv_of_reachable {τ : Type} (threads : Nat) (s : Sys τ) (h : Reachable threads s) :
    Inv threads s := by
  obtain ⟨sched, hrun⟩ := h
  exact inv_run threads sched _ s (inv_init threads) hrun

theorem run_append {τ : Type} (s : Sys τ) (xs ys : List (Action τ)) :
    run s (xs ++ ys) = (run s xs).bind (fun s1 => run s1 ys) := by
  induction xs generalizing s with
  | nil => simp [run]
  | cons a rest ih =>
    simp only [List.cons_append, run]
    cases step s a with
    | none => simp
    | some s2 => simpa using ih s2

theorem reachable_run {τ : Type} (threads : Nat) (s s1 : Sys τ) (sched : List (Action τ))
    (h : Reachable threads s) (hrun : run s sched = some s1) : Reachable threads s1 := by
  obtain ⟨pre, hpre⟩ := h
  exact ⟨pre ++ sched, by simp [run_append, hpre, hrun]⟩

/-! ## Consequences of the invariant -/

theorem joined_iff {τ : Type} [DecidableEq τ] (p : ThreadPool τ) :
    p.joined = true ↔ ∀ w ∈ p.workers, w.pc = WorkerState.exited := by
  simp [ThreadPool.joined]

theorem held_of_all_exited {τ : Type} (ws : List (Worker τ))
    (h : ∀ w ∈ ws, w.pc = WorkerState.exited) : held ws = [] := by
  induction ws with
  | nil => rfl
  | cons x xs ih =>
    rw [held_cons_exited x xs (h x (by simp))]
    exact ih (fun w hw => h w (by simp [hw]))

theorem invoked_sub_dequeued {τ : Type} (threads : Nat) (s : Sys τ) (hinv : Inv threads s)
    (p : Nat × τ) (hp : p ∈ s.invoked) : p ∈ s.dequeued :=
  hinv.owned.mem_iff.mpr (List.mem_append_left _ hp)

theorem dequeued_sub_accepted {τ : Type} (threads : Nat) (s : Sys τ) (hinv : Inv threads s)
    (p : Nat × τ) (hp : p ∈ s.dequeued) : p.2 ∈ s.accepted := by
  rw [hinv.fifo]
  exact List.mem_append_left _ (List.mem_map_of_mem Prod.snd hp)

theorem stop_step {τ : Type} (s s1 : Sys τ) (a : Action τ) (hs : s.pool.stop = true)
    (hstep : step s a = some s1) : s1.pool.stop = true ∧ s1.accepted = s.accepted := by
  cases a with
  | enqueue f =>
    simp [step, ThreadPool.enqueue, hs] at hstep
    subst hstep
    exact ⟨hs, rfl⟩
  | shutdown =>
    simp [step, ThreadPool.dtor] at hstep
    subst hstep
    exact ⟨rfl, rfl⟩
  | worker k =>
    simp only [step, workerStep] at hstep
    cases hk : s.pool.workers[k]? with
    | none => simp [hk] at hstep
    | some w =>
      cases hpc : w.pc with
      | exited => simp [hk, hpc] at hstep
      | holding t =>
        simp [hk, hpc] at hstep
        subst hstep
        exact ⟨hs, rfl⟩
      | waiting =>
        rcases fetch_cases s.pool with ⟨hq, hs1, hf⟩ | ⟨hq, hs1, hf⟩ | ⟨t, rest, hq, hf⟩
        · simp [hk, hpc, hf] at hstep
          subst hstep
          exact ⟨hs, rfl⟩
        · simp [hk, hpc, hf] at hstep
          subst hstep
          exact ⟨hs, rfl⟩
        · simp [hk, hpc, hf] at hstep
          subst hstep
          exact ⟨hs, rfl⟩

theorem stop_run {τ : Type} (sched : List (Action τ)) (s s1 : Sys τ) (hs : s.pool.stop = true)
    (hrun : run s sched = some s1) : s1.pool.stop = true ∧ s1.accepted = s.accepted := by
  induction sched generalizing s with
  | nil =>
    simp [run] at hrun
    subst hrun
    exact ⟨hs, rfl⟩
  | cons a rest ih =>
    simp only [run] at hrun
    cases hst : step s a with
    | none => simp [hst] at hrun
    | some s2 =>
      simp only [hst] at hrun
      obtain ⟨h1, h2⟩ := stop_step s s2 a hs hst
      obtain ⟨h3, h4⟩ := ih s2 h1 hrun
      exact ⟨h3, h4.trans h2⟩

/-! ## After stop, the workers can always drain the queue and return -/

theorem weight_set {τ : Type} (ws : List (Worker τ)) (k : Nat) (w v : Worker τ)
    (hk : ws[k]? = some w) :
    ((ws.set k v).map Worker.weight).sum + w.weight
      = (ws.map Worker.weight).sum + v.weight := by
  obtain ⟨a, b, hab, -, hset⟩ := set_split ws k w hk
  rw [hset v, hab]
  simp only [List.map_append, List.map_cons, List.sum_append, List.sum_cons]
  omega

theorem progress_step {τ : Type} [DecidableEq τ] (s : Sys τ) (hstop : s.pool.stop = true)
    (hj : ¬ s.pool.joined = true) :
    ∃ k s1, workerStep s k = some s1 ∧ s1.pool.stop = true ∧ s1.pending < s.pending := by
  have hex : ∃ w ∈ s.pool.workers, w.pc ≠ WorkerState.exited := by
    by_contra hno
    apply hj
    rw [joined_iff]
    intro w hw
    by_contra hne
    exact hno ⟨w, hw, hne⟩
  obtain ⟨w, hw, hne⟩ := hex
  obtain ⟨k, hk⟩ := List.getElem?_of_mem hw
  refine ⟨k, ?_⟩
  cases hpc : w.pc with
  | exited => exact absurd hpc hne
  | holding t =>
    have hwt := weight_set s.pool.workers k w { w with pc := WorkerState.waiting } hk
    have h1 : w.weight = 2 := by simp [Worker.weight, hpc]
    have h2 : ({ w with pc := WorkerState.waiting } : Worker τ).weight = 1 := rfl
    have hstep : workerStep s k = some { s with
        pool := { s.pool with
          workers := s.pool.workers.set k { w with pc := WorkerState.waiting } }
        invoked := s.invoked ++ [(w.i, t)] } := by
      simp only [workerStep, hk, hpc]
    refine ⟨_, hstep, hstop, ?_⟩
    simp only [Sys.pending]
    omega
  | waiting =>
    have h1 : w.weight = 1 := by simp [Worker.weight, hpc]
    rcases fetch_cases s.pool with ⟨-, hs, -⟩ | ⟨-, -, hf⟩ | ⟨t, rest, hq, hf⟩
    · rw [hstop] at hs; cases hs
    · have hwt := weight_set s.pool.workers k w { w with pc := WorkerState.exited } hk
      have h2 : ({ w with pc := WorkerState.exited } : Worker τ).weight = 0 := rfl
      have hstep : workerStep s k = some { s with
          pool := { s.pool with
            workers := s.pool.workers.set k { w with pc := WorkerState.exited } } } := by
        simp only [workerStep, hk, hpc, hf]
      refine ⟨_, hstep, hstop, ?_⟩
      simp only [Sys.pending]
      omega
    · have hwt := weight_set s.pool.workers k w { w with pc := WorkerState.holding t } hk
      have h2 : ({ w with pc := WorkerState.holding t } : Worker τ).weight = 2 := rfl
      have hstep : workerStep s k = some { s with
          pool := { s.pool with
            workers := s.pool.workers.set k { w with pc := WorkerState.holding t }
            tasks := rest
            task_queue_size := (s.pool.task_queue_size + SIZE_MOD - 1) % SIZE_MOD }
          dequeued := s.dequeued ++ [(k, t)] } := by
        simp only [workerStep, hk, hpc, hf]
      refine ⟨_, hstep, hstop, ?_⟩
      simp only [Sys.pending, hq, List.length_cons]
      omega

theorem drain_from_stopped {τ : Type} [DecidableEq τ] (n : Nat) (s : Sys τ)
    (hn : s.pending ≤ n) (hstop : s.pool.stop = true) :
    ∃ sched s1, run s sched = some s1 ∧ s1.pool.joined = true := by
  induction n generalizing s with
  | zero =>
    by_cases hj : s.pool.joined = true
    · exact ⟨[], s, rfl, hj⟩
    · obtain ⟨k, s1, -, -, hlt⟩ := progress_step s hstop hj
      omega
  | succ n ih =>
    by_cases hj : s.pool.joined = true
    · exact ⟨[], s, rfl, hj⟩
    · obtain ⟨k, s1, hstep, hstop1, hlt⟩ := progress_step s hstop hj
      obtain ⟨sched, s2, hrun, hj2⟩ := ih s1 (by omega) hstop1
      exact ⟨Action.worker k :: sched, s2, by simp only [run, step, hstep, hrun], hj2⟩

/-- From every reachable state the destructor can complete: after it sets
stop there is a schedule of worker moves after which all workers have
returned. -/
theorem drain_reachable {τ : Type} [DecidableEq τ] (threads : Nat) (s : Sys τ)
    (hreach : Reachable threads s) :
    ∃ sched s1, run s (Action.shutdown :: sched) = some s1 ∧ s1.pool.joined = true ∧
      Reachable threads s1 := by
  obtain ⟨sched, s1, hrun, hj⟩ :=
    drain_from_stopped ({ s with pool := s.pool.dtor } : Sys τ).pending
      { s with pool := s.pool.dtor } (Nat.le_refl _) rfl
  have hrun1 : run s (Action.shutdown :: sched) = some s1 := by
    simp only [run, step, hrun]
  exact ⟨sched, s1, hrun1, hj, reachable_run threads s s1 _ hreach hrun1⟩

/-! ## The constructor -/

/-- Claim C8: for every worker count, `queue_size()` of a freshly constructed
pool is 0, its queue is empty and its stop flag is unset. -/
theorem ctor_queue_size_zero {τ : Type} (threads : Nat) :
    (ThreadPool.ctor threads : ThreadPool τ).queue_size = 0 ∧
    (ThreadPool.ctor threads : ThreadPool τ).tasks = [] ∧
    (ThreadPool.ctor threads : ThreadPool τ).stop = false ∧
    (Sys.init threads : Sys τ).pool.queue_size = 0 := by
  simp [ThreadPool.ctor, ThreadPool.queue_size, Sys.init]

/-! ## enqueue -/

/-- Claim C4: in a pool whose stop flag is unset, `enqueue(f)` succeeds for a
queue of any length; the new queue is the old one with `f` appended at the
back, the stop flag, the workers and every task already queued are unchanged,
and the counter is incremented as a `size_t`, which is the old counter plus
one whenever the old counter is below the largest `size_t`. -/
theorem enqueue_appends {τ : Type} (p : ThreadPool τ) (f : τ) (hrun : p.stop = false) :
    ∃ p1, p.enqueue f = Except.ok p1 ∧
      p1.tasks = p.tasks ++ [f] ∧
      p1.stop = false ∧
      p1.workers = p.workers ∧
      (∀ (k : Nat) (t : τ), p.tasks[k]? = some t → p1.tasks[k]? = some t) ∧
      p1.tasks.length = p.tasks.length + 1 ∧
      p1.task_queue_size = (p.task_queue_size + 1) % SIZE_MOD ∧
      (p.task_queue_size + 1 < SIZE_MOD → p1.queue_size = p.queue_size + 1) := by
  refine ⟨{ p with
      tasks := p.tasks ++ [f]
      task_queue_size := (p.task_queue_size + 1) % SIZE_MOD },
    by simp [ThreadPool.enqueue, hrun], rfl, hrun, rfl, ?_, by simp, rfl, ?_⟩
  · intro k t hk
    have hlt : k < p.tasks.length := (List.getElem?_eq_some.mp hk).1
    simp only [List.getElem?_append_left hlt, hk]
  · intro hlt
    simp [ThreadPool.queue_size, Nat.mod_eq_of_lt hlt]

/-- Claim C3: in every state whose stop flag is set, `enqueue(f)` throws
"enqueue on stopped ThreadPool" and the whole state, queue and counter
included, stays as it was; when the state is a reachable one, in every state
reached afterwards nothing more has been accepted, and a task `f` that was not
accepted earlier is not in the queue, has not been dequeued and has not been
invoked by any worker.  Conversely `enqueue` throws only when the stop flag is
set. -/
theorem enqueue_stopped_rejects {τ : Type} (s : Sys τ) (f : τ)
    (hstop : s.pool.stop = true) :
    s.pool.enqueue f = Except.error "enqueue on stopped ThreadPool" ∧
    step s (Action.enqueue f) = some s ∧
    (∀ threads sched s1, Reachable threads s →
      run s (Action.enqueue f :: sched) = some s1 →
      s1.pool.stop = true ∧ s1.accepted = s.accepted ∧
      (f ∉ s.accepted → f ∉ s1.pool.tasks ∧ ∀ k, (k, f) ∉ s1.dequeued ∧ (k, f) ∉ s1.invoked)) ∧
    (∀ (p : ThreadPool τ) (g : τ) (e : String), p.enqueue g = Except.error e → p.stop = true) := by
  have hthrow : s.pool.enqueue f = Except.error "enqueue on stopped ThreadPool" := by
    simp [ThreadPool.enqueue, hstop]
  have hstep : step s (Action.enqueue f) = some s := by
    simp [step, hthrow]
  refine ⟨hthrow, hstep, ?_, ?_⟩
  · intro threads sched s1 hreach hrun
    simp only [run, hstep] at hrun
    obtain ⟨h1, h2⟩ := stop_run sched s s1 hstop hrun
    refine ⟨h1, h2, ?_⟩
    intro hf
    have hinv := inv_of_reachable threads s1 (reachable_run threads s s1 sched hreach hrun)
    have hacc : f ∉ s1.accepted := by rw [h2]; exact hf
    refine ⟨?_, ?_⟩
    · intro hmem
      apply hacc
      rw [hinv.fifo]
      exact List.mem_append_right _ hmem
    · intro k
      have hdq : (k, f) ∉ s1.dequeued := fun hmem =>
        hacc (dequeued_sub_accepted threads s1 hinv (k, f) hmem)
      exact ⟨hdq, fun hmem => hdq (invoked_sub_dequeued threads s1 hinv (k, f) hmem)⟩
  · intro p g e he
    cases hs : p.stop with
    | true => rfl
    | false => simp [ThreadPool.enqueue, hs] at he

/-- Claim C6: in every reachable state, the queue length being a `size_t`
value, `queue_size()` equals the number of tasks in the queue; the decrement
of the worker loop runs only with a counter above 0 and takes it to the
counter minus one, so the counter never wraps. -/
theorem queue_size_eq_length {τ : Type} (threads : Nat) (s : Sys τ)
    (hreach : Reachable threads s) (hfit : s.pool.tasks.length < SIZE_MOD) :
    s.pool.queue_size = s.pool.tasks.length ∧
    (∀ t p1, s.pool.fetch = Fetch.task t p1 →
      0 < s.pool.task_queue_size ∧
      p1.task_queue_size = s.pool.task_queue_size - 1 ∧
      p1.queue_size = p1.tasks.length) := by
  have hinv := inv_of_reachable threads s hreach
  have hsz : s.pool.task_queue_size = s.pool.tasks.length := by
    rw [hinv.size]
    exact Nat.mod_eq_of_lt hfit
  refine ⟨hsz, ?_⟩
  intro t p1 hf
  rcases fetch_cases s.pool with ⟨hq, hs, hf1⟩ | ⟨hq, hs, hf1⟩ | ⟨t1, rest, hq, hf1⟩
  · rw [hf1] at hf; cases hf
  · rw [hf1] at hf; cases hf
  · rw [hf1] at hf
    cases hf
    rw [hq] at hsz hfit
    simp only [List.length_cons] at hsz hfit
    have h1 : s.pool.task_queue_size + SIZE_MOD - 1 = rest.length + SIZE_MOD := by omega
    have h2 : (s.pool.task_queue_size + SIZE_MOD - 1) % SIZE_MOD = rest.length := by
      rw [h1, Nat.add_mod_right]
      exact Nat.mod_eq_of_lt (by omega)
    refine ⟨by omega, ?_, ?_⟩
    · show (s.pool.task_queue_size + SIZE_MOD - 1) % SIZE_MOD = s.pool.task_queue_size - 1
      omega
    · rw [queue_size_def]
      exact h2

/-! ## The worker loop -/

/-- Claim C9: a waiting worker that runs the locked block keeps waiting iff
stop is unset and the queue is empty, returns iff stop is set and the queue is
empty, and otherwise moves out exactly the front task, decrements the counter
(as a `size_t`: by one whenever it is not 0), leaves the rest of the queue, the
stop flag and the other workers as they were, and then calls that task with
its own captured index.  `front()` and `pop()` are never applied to an empty
queue. -/
theorem worker_locked_block {τ : Type} (s : Sys τ) (k : Nat) (w : Worker τ)
    (hk : s.pool.workers[k]? = some w) (hw : w.pc = WorkerState.waiting) :
    (s.pool.fetch = Fetch.wait ↔ s.pool.stop = false ∧ s.pool.tasks = []) ∧
    (s.pool.fetch = Fetch.ret ↔ s.pool.stop = true ∧ s.pool.tasks = []) ∧
    (s.pool.fetch = Fetch.wait → workerStep s k = some s) ∧
    (s.pool.fetch = Fetch.ret → ∃ s1, workerStep s k = some s1 ∧
      s1.pool.workers[k]? = some { w with pc := WorkerState.exited } ∧
      s1.pool.tasks = s.pool.tasks ∧ s1.pool.stop = s.pool.stop ∧
      s1.pool.task_queue_size = s.pool.task_queue_size ∧
      s1.dequeued = s.dequeued ∧ s1.invoked = s.invoked) ∧
    (∀ t rest, s.pool.tasks = t :: rest → ∃ s1 s2,
      workerStep s k = some s1 ∧
      s1.pool.tasks = rest ∧
      s1.pool.stop = s.pool.stop ∧
      s1.pool.task_queue_size = (s.pool.task_queue_size + SIZE_MOD - 1) % SIZE_MOD ∧
      (0 < s.pool.task_queue_size → s.pool.task_queue_size < SIZE_MOD →
        s1.pool.task_queue_size = s.pool.task_queue_size - 1) ∧
      s1.pool.workers = s.pool.workers.set k { w with pc := WorkerState.holding t } ∧
      s1.dequeued = s.dequeued ++ [(k, t)] ∧
      workerStep s1 k = some s2 ∧
      s2.invoked = s.invoked ++ [(w.i, t)] ∧
      s2.pool.tasks = rest) ∧
    s.pool.fetch ≠ Fetch.undefined ∧
    (∀ t p1, s.pool.fetch = Fetch.task t p1 → s.pool.tasks ≠ []) := by
  have hlen : k < s.pool.workers.length := (List.getElem?_eq_some.mp hk).1
  refine ⟨?_, ?_, ?_, ?_, ?_, ?_, ?_⟩
  · rcases fetch_cases s.pool with ⟨hq, hs, hf⟩ | ⟨hq, hs, hf⟩ | ⟨t, rest, hq, hf⟩
    · simp [hq, hs, hf]
    · simp [hq, hs, hf]
    · simp [hq, hf]
  · rcases fetch_cases s.pool with ⟨hq, hs, hf⟩ | ⟨hq, hs, hf⟩ | ⟨t, rest, hq, hf⟩
    · simp [hq, hs, hf]
    · simp [hq, hs, hf]
    · simp [hq, hf]
  · intro hf
    simp [workerStep, hk, hw, hf]
  · intro hf
    have hstep : workerStep s k = some { s with
        pool := { s.pool with
          workers := s.pool.workers.set k { w with pc := WorkerState.exited } } } := by
      simp only [workerStep, hk, hw, hf]
    refine ⟨_, hstep, ?_, rfl, rfl, rfl, rfl, rfl⟩
    simp only [List.getElem?_set_self hlen]
  · intro t rest hq
    rcases fetch_cases s.pool with ⟨hq1, -, -⟩ | ⟨hq1, -, -⟩ | ⟨t1, rest1, hq1, hf⟩
    · rw [hq] at hq1; cases hq1
    · rw [hq] at hq1; cases hq1
    · rw [hq] at hq1
      cases hq1
      have hstep : workerStep s k = some { s with
          pool := { s.pool with
            workers := s.pool.workers.set k { w with pc := WorkerState.holding t }
            tasks := rest
            task_queue_size := (s.pool.task_queue_size + SIZE_MOD - 1) % SIZE_MOD }
          dequeued := s.dequeued ++ [(k, t)] } := by
        simp only [workerStep, hk, hw, hf]
      refine ⟨_, { s with
          pool := { s.pool with
            workers := (s.pool.workers.set k { w with pc := WorkerState.holding t }).set k
              { w with pc := WorkerState.waiting }
            tasks := rest
            task_queue_size := (s.pool.task_queue_size + SIZE_MOD - 1) % SIZE_MOD }
          dequeued := s.dequeued ++ [(k, t)]
          invoked := s.invoked ++ [(w.i, t)] },
        hstep, rfl, rfl, rfl, ?_, rfl, rfl, ?_, rfl, rfl⟩
      · intro h0 hlt
        show (s.pool.task_queue_size + SIZE_MOD - 1) % SIZE_MOD = s.pool.task_queue_size - 1
        have h1 : s.pool.task_queue_size + SIZE_MOD - 1
            = (s.pool.task_queue_size - 1) + SIZE_MOD := by omega
        rw [h1, Nat.add_mod_right]
        exact Nat.mod_eq_of_lt (by omega)
      · simp only [workerStep, List.getElem?_set_self hlen]
  · rcases fetch_cases s.pool with ⟨hq, hs, hf⟩ | ⟨hq, hs, hf⟩ | ⟨t, rest, hq, hf⟩ <;>
      simp [hf]
  · intro t p1 hf
    rcases fetch_cases s.pool with ⟨hq, hs, hf1⟩ | ⟨hq, hs, hf1⟩ | ⟨t1, rest, hq, hf1⟩
    · rw [hf1] at hf; cases hf
    · rw [hf1] at hf; cases hf
    · simp [hq]

/-- Claim C7: in every reachable state of a pool built with `threads`
workers, the workers carry the pairwise distinct indices 0, 1, ...,
`threads - 1` in creation order, every call `task(i)` that was made received
the index `i < threads` of the worker that dequeued the task, and a worker
that holds a task passes its own index to it. -/
theorem worker_index_in_range {τ : Type} (threads : Nat) (s : Sys τ)
    (hreach : Reachable threads s) :
    s.pool.workers.map Worker.i = List.range threads ∧
    (s.pool.workers.map Worker.i).Nodup ∧
    s.pool.workers.length = threads ∧
    (∀ (k : Nat) (w : Worker τ), s.pool.workers[k]? = some w → w.i = k ∧ k < threads) ∧
    (∀ p ∈ s.invoked, p.1 < threads ∧ p ∈ s.dequeued) ∧
    (∀ (k : Nat) (w : Worker τ) (t : τ), s.pool.workers[k]? = some w →
      w.pc = WorkerState.holding t →
      ∃ s1, workerStep s k = some s1 ∧ s1.invoked = s.invoked ++ [(k, t)] ∧
        s1.pool.workers.map Worker.i = s.pool.workers.map Worker.i) := by
  have hinv := inv_of_reachable threads s hreach
  refine ⟨hinv.ids, ?_, ?_, ?_, ?_, ?_⟩
  · rw [hinv.ids]; exact List.nodup_range threads
  · have := congrArg List.length hinv.ids
    simpa using this
  · intro k w hk
    exact ids_at threads s.pool.workers k w hinv.ids hk
  · intro p hp
    have hd := invoked_sub_dequeued threads s hinv p hp
    exact ⟨hinv.bound p hd, hd⟩
  · intro k w t hk hpc
    obtain ⟨hwi, -⟩ := ids_at threads s.pool.workers k w hinv.ids hk
    have hstep : workerStep s k = some { s with
        pool := { s.pool with
          workers := s.pool.workers.set k { w with pc := WorkerState.waiting } }
        invoked := s.invoked ++ [(w.i, t)] } := by
      simp only [workerStep, hk, hpc]
    refine ⟨_, hstep, by simp [hwi], ?_⟩
    obtain ⟨a, b, hab, -, hset⟩ := set_split s.pool.workers k w hk
    simp only [hset]
    rw [hab]
    simp

/-- Claim C1: in every reachable state, for every worker count, the accepted
tasks are exactly the tasks in the queue together with the dequeued ones, and
the dequeued ones are exactly those run together with those held by the worker
that took them, counted with multiplicity.  When the accepted tasks are
pairwise distinct, each of them is in the queue exactly once and not dequeued,
or dequeued exactly once and not in the queue, and is run at most once. -/
theorem accepted_task_accounted {τ : Type} [DecidableEq τ] (threads : Nat) (s : Sys τ)
    (hreach : Reachable threads s) :
    (∀ t, s.accepted.count t = s.pool.tasks.count t + (s.dequeued.map Prod.snd).count t) ∧
    (∀ p, s.dequeued.count p = s.invoked.count p + (held s.pool.workers).count p) ∧
    (∀ t, (s.dequeued.map Prod.snd).count t
      = (s.invoked.map Prod.snd).count t + ((held s.pool.workers).map Prod.snd).count t) ∧
    (s.accepted.Nodup → ∀ t ∈ s.accepted,
      ((s.pool.tasks.count t = 1 ∧ (s.dequeued.map Prod.snd).count t = 0) ∨
       (s.pool.tasks.count t = 0 ∧ (s.dequeued.map Prod.snd).count t = 1)) ∧
      (s.invoked.map Prod.snd).count t ≤ 1) := by
  have hinv := inv_of_reachable threads s hreach
  have h1 : ∀ t, s.accepted.count t
      = s.pool.tasks.count t + (s.dequeued.map Prod.snd).count t := by
    intro t
    rw [hinv.fifo, List.count_append, Nat.add_comm]
  have h2 : ∀ p, s.dequeued.count p = s.invoked.count p + (held s.pool.workers).count p := by
    intro p
    simp only [List.count]
    rw [hinv.owned.countP_eq, List.countP_append]
  have h3 : ∀ t, (s.dequeued.map Prod.snd).count t
      = (s.invoked.map Prod.snd).count t + ((held s.pool.workers).map Prod.snd).count t := by
    intro t
    rw [(hinv.owned.map Prod.snd).count_eq t, List.map_append, List.count_append]
  refine ⟨h1, h2, h3, ?_⟩
  intro hnd t ht
  have h4 : s.accepted.count t = 1 := List.count_eq_one_of_mem hnd ht
  have h5 := h1 t
  have h6 := h3 t
  refine ⟨?_, by omega⟩
  omega

/-- Claim C5: in every reachable state, the tasks in the order the workers
dequeued them, followed by the queue from front to back, are the tasks in the
order `enqueue` accepted them.  With one worker, the tasks in the order they
were run, followed by the task the worker holds and by the queue, are the
accepted tasks in order; so when T1, T2, T3 were accepted in that order the
tasks run so far are an initial segment of T1, T2, T3, and are T1, T2, T3 once
the worker has returned. -/
theorem fifo_dispatch {τ : Type} [DecidableEq τ] (threads : Nat) (s : Sys τ)
    (hreach : Reachable threads s) :
    s.dequeued.map Prod.snd ++ s.pool.tasks = s.accepted ∧
    (threads = 1 →
      s.invoked.map Prod.snd ++ (held s.pool.workers).map Prod.snd ++ s.pool.tasks
        = s.accepted) ∧
    (threads = 1 → ∀ T1 T2 T3 : τ, s.accepted = [T1, T2, T3] →
      (∃ rest, s.invoked.map Prod.snd ++ rest = [T1, T2, T3]) ∧
      (s.pool.joined = true → s.invoked.map Prod.snd = [T1, T2, T3])) := by
  have hinv := inv_of_reachable threads s hreach
  have hone : threads = 1 →
      s.invoked.map Prod.snd ++ (held s.pool.workers).map Prod.snd ++ s.pool.tasks
        = s.accepted := by
    intro h1
    rw [hinv.fifo, hinv.single h1, List.map_append]
  refine ⟨hinv.fifo.symm, hone, ?_⟩
  intro h1 T1 T2 T3 hacc
  have h2 := hone h1
  rw [hacc] at h2
  refine ⟨⟨(held s.pool.workers).map Prod.snd ++ s.pool.tasks, by
    rw [← List.append_assoc]; exact h2⟩, ?_⟩
  intro hj
  have hall := (joined_iff s.pool).mp hj
  have hheld := held_of_all_exited s.pool.workers hall
  have hex : ∃ w ∈ s.pool.workers, w.pc = WorkerState.exited := by
    have hlen : s.pool.workers.length = 1 := by
      have := congrArg List.length hinv.ids
      simpa [h1] using this
    cases hws : s.pool.workers with
    | nil => simp [hws] at hlen
    | cons x xs => exact ⟨x, by simp, hall x (by simp [hws])⟩
  have hq := (hinv.drained hex).2
  rw [hheld, hq] at h2
  simpa using h2

/-- Claim C2: for a pool with at least one worker, in every reachable state in
which all workers have returned (the state in which the joins of the
destructor return) the stop flag is set, the queue is empty and the tasks that
were run are exactly the accepted tasks, each as often as it was accepted.  A
worker does not return while the queue is non-empty, and setting stop leaves
the queue and the counter as they are. -/
theorem drain_guarantee {τ : Type} [DecidableEq τ] (threads : Nat) (s : Sys τ)
    (hreach : Reachable threads s) (hpos : 1 ≤ threads) (hj : s.pool.joined = true) :
    s.pool.stop = true ∧
    s.pool.tasks = [] ∧
    List.Perm (s.invoked.map Prod.snd) s.accepted ∧
    s.invoked.length = s.accepted.length ∧
    (∀ t, (s.invoked.map Prod.snd).count t = s.accepted.count t) ∧
    (∀ p : ThreadPool τ, p.tasks ≠ [] → p.fetch ≠ Fetch.ret) ∧
    (∀ p : ThreadPool τ, p.dtor.tasks = p.tasks ∧ p.dtor.task_queue_size = p.task_queue_size ∧
      p.dtor.stop = true) := by
  have hinv := inv_of_reachable threads s hreach
  have hall := (joined_iff s.pool).mp hj
  have hheld := held_of_all_exited s.pool.workers hall
  have hex : ∃ w ∈ s.pool.workers, w.pc = WorkerState.exited := by
    have hlen : s.pool.workers.length = threads := by
      have := congrArg List.length hinv.ids
      simpa using this
    cases hws : s.pool.workers with
    | nil => simp [hws] at hlen; omega
    | cons x xs => exact ⟨x, by simp, hall x (by simp [hws])⟩
  obtain ⟨hstop, hq⟩ := hinv.drained hex
  have hperm : List.Perm (s.invoked.map Prod.snd) s.accepted := by
    have h1 := hinv.owned
    rw [hheld, List.append_nil] at h1
    have h2 := hinv.fifo
    rw [hq, List.append_nil] at h2
    rw [h2]
    exact (h1.map Prod.snd).symm
  refine ⟨hstop, hq, hperm, ?_, fun t => hperm.count_eq t, ?_, fun p => ⟨rfl, rfl, rfl⟩⟩
  · have := hperm.length_eq
    simpa using this
  · intro p hne hf
    rcases fetch_cases p with ⟨hq1, -, -⟩ | ⟨hq1, -, -⟩ | ⟨t, rest, -, hf1⟩
    · exact hne hq1
    · exact hne hq1
    · rw [hf1] at hf; cases hf

/-- Claim C10: the constructor accepts 0 workers.  In every reachable state of
such a pool there is no worker, nothing has been dequeued or run and no worker
move exists; the queue holds all accepted tasks in order; while stop is unset
every `enqueue` succeeds and appends; the destructor sets stop and its joins
return at once with the accepted tasks still queued; and `queue_size()` is
the number of accepted tasks (that number being a `size_t` value). -/
theorem zero_workers_never_run {τ : Type} [DecidableEq τ] (s : Sys τ)
    (hreach : Reachable 0 s) :
    (ThreadPool.ctor 0 : ThreadPool τ).workers = [] ∧
    s.pool.workers = [] ∧
    s.dequeued = [] ∧
    s.invoked = [] ∧
    s.pool.tasks = s.accepted ∧
    (∀ k, workerStep s k = none) ∧
    (s.pool.stop = false → ∀ f, ∃ s1, step s (Action.enqueue f) = some s1 ∧
      s1.pool.tasks = s.pool.tasks ++ [f] ∧ s1.accepted = s.accepted ++ [f]) ∧
    (∃ s1, step s Action.shutdown = some s1 ∧ s1.pool.stop = true ∧
      s1.pool.joined = true ∧ s1.pool.tasks = s.accepted ∧ s1.invoked = []) ∧
    (s.accepted.length < SIZE_MOD → s.pool.queue_size = s.accepted.length) := by
  have hinv := inv_of_reachable 0 s hreach
  have hws : s.pool.workers = [] := by
    have := hinv.ids
    simpa using this
  have hdq : s.dequeued = [] := by
    cases hd : s.dequeued with
    | nil => rfl
    | cons p ps =>
      have := hinv.bound p (by simp [hd])
      omega
  have hiv : s.invoked = [] := by
    cases hi : s.invoked with
    | nil => rfl
    | cons p ps =>
      have := invoked_sub_dequeued 0 s hinv p (by simp [hi])
      simp [hdq] at this
  have hq : s.pool.tasks = s.accepted := by
    have := hinv.fifo
    simp [hdq] at this
    exact this.symm
  refine ⟨rfl, hws, hdq, hiv, hq, ?_, ?_, ?_, ?_⟩
  · intro k
    simp [workerStep, hws]
  · intro hs f
    refine ⟨{ s with
        pool := { s.pool with
          tasks := s.pool.tasks ++ [f]
          task_queue_size := (s.pool.task_queue_size + 1) % SIZE_MOD }
        accepted := s.accepted ++ [f] }, ?_, rfl, rfl⟩
    simp [step, ThreadPool.enqueue, hs]
  · refine ⟨{ s with pool := s.pool.dtor }, rfl, rfl, ?_, hq, hiv⟩
    simp [ThreadPool.joined, ThreadPool.dtor, hws]
  · intro hfit
    rw [← hq] at hfit ⊢
    show s.pool.task_queue_size = s.pool.tasks.length
    rw [hinv.size]
    exact Nat.mod_eq_of_lt hfit

/-! ## The theorems at concrete runs -/

theorem demoMid_reachable : Reachable 2 demoMid := ⟨demoMidSched, by decide⟩

theorem demoDone_reachable : Reachable 2 demoDone := ⟨demoSched, by decide⟩

theorem oneDone_reachable : Reachable 1 oneDone := ⟨oneSched, by decide⟩

theorem zeroMid_reachable : Reachable 0 zeroMid := ⟨zeroSched, by decide⟩

theorem stopMid_reachable : Reachable 2 stopMid := ⟨stopSched, by decide⟩

/-- Claim C1 at `demoMid`: task 12 is queued once and not dequeued, task 11 is
dequeued once and not queued. -/
theorem accepted_task_accounted_witness :
    Reachable 2 demoMid ∧ demoMid.accepted.Nodup ∧
    (((demoMid.pool.tasks.count 11 = 1 ∧ (demoMid.dequeued.map Prod.snd).count 11 = 0) ∨
      (demoMid.pool.tasks.count 11 = 0 ∧ (demoMid.dequeued.map Prod.snd).count 11 = 1)) ∧
     (demoMid.invoked.map Prod.snd).count 11 ≤ 1) :=
  ⟨demoMid_reachable, by decide,
    (accepted_task_accounted 2 demoMid demoMid_reachable).2.2.2 (by decide) 11 (by decide)⟩

/-- Claim C2 at `demoDone`: both workers returned, the queue is empty and the
three accepted tasks were run. -/
theorem drain_guarantee_witness :
    Reachable 2 demoDone ∧ 1 ≤ 2 ∧ demoDone.pool.joined = true ∧
    demoDone.pool.tasks = [] ∧ List.Perm (demoDone.invoked.map Prod.snd) demoDone.accepted :=
  ⟨demoDone_reachable, by decide, by decide,
    (drain_guarantee 2 demoDone demoDone_reachable (by decide) (by decide)).2.1,
    (drain_guarantee 2 demoDone demoDone_reachable (by decide) (by decide)).2.2.1⟩

/-- Claim C3 at `stopMid`: `enqueue(99)` throws, the state is unchanged, and
after the workers have finished 99 was not invoked. -/
theorem enqueue_stopped_rejects_witness :
    stopMid.pool.stop = true ∧
    stopMid.pool.enqueue 99 = Except.error "enqueue on stopped ThreadPool" ∧
    step stopMid (Action.enqueue 99) = some stopMid ∧
    (1, 99) ∉ stopDone.invoked :=
  ⟨rfl,
    (enqueue_stopped_rejects stopMid 99 rfl).1,
    (enqueue_stopped_rejects stopMid 99 rfl).2.1,
    ((((enqueue_stopped_rejects stopMid 99 rfl).2.2.1 2
      [Action.worker 1, Action.worker 0, Action.worker 1] stopDone stopMid_reachable
      (by decide)).2.2 (by decide)).2 1).2⟩

/-- Claim C4 at `demoPool`: `enqueue(6)` succeeds, appends 6 and the counter
goes from 1 to 2. -/
theorem enqueue_appends_witness :
    demoPool.stop = false ∧
    ∃ p1, demoPool.enqueue 6 = Except.ok p1 ∧ p1.tasks = [5, 6] ∧
      p1.queue_size = demoPool.queue_size + 1 := by
  obtain ⟨p1, h1, h2, -, -, -, -, -, h3⟩ := enqueue_appends demoPool 6 rfl
  exact ⟨rfl, p1, h1, h2, h3 (by decide)⟩

/-- Claim C5 at `oneDone`: one worker, 1, 2, 3 accepted in that order and run
in that order. -/
theorem fifo_dispatch_witness :
    Reachable 1 oneDone ∧ oneDone.accepted = [1, 2, 3] ∧ oneDone.pool.joined = true ∧
    oneDone.invoked.map Prod.snd = [1, 2, 3] :=
  ⟨oneDone_reachable, rfl, by decide,
    ((fifo_dispatch 1 oneDone oneDone_reachable).2.2 rfl 1 2 3 rfl).2 (by decide)⟩

/-- Claim C6 at `demoMid`: one task queued, `queue_size()` is 1. -/
theorem queue_size_eq_length_witness :
    Reachable 2 demoMid ∧ demoMid.pool.tasks.length < SIZE_MOD ∧
    demoMid.pool.queue_size = demoMid.pool.tasks.length :=
  ⟨demoMid_reachable, by decide,
    (queue_size_eq_length 2 demoMid demoMid_reachable (by decide)).1⟩

/-- Claim C7 at `demoMid`: the workers carry the indices 0 and 1, and the call
that was made got an index below 2. -/
theorem worker_index_in_range_witness :
    Reachable 2 demoMid ∧ demoMid.pool.workers.map Worker.i = List.range 2 ∧
    ((0, 10) : Nat × Nat).1 < 2 ∧ ((0, 10) : Nat × Nat) ∈ demoMid.dequeued :=
  ⟨demoMid_reachable, (worker_index_in_range 2 demoMid demoMid_reachable).1,
    (worker_index_in_range 2 demoMid demoMid_reachable).2.2.2.2.1 (0, 10) (by decide)⟩

/-- Claim C9 at `demoMid`, worker 0: the queue holds task 12, so the worker
neither waits nor returns; it takes 12, the queue becomes empty, and it calls
the task with index 0. -/
theorem worker_locked_block_witness :
    demoMid.pool.workers[0]? = some { i := 0, pc := WorkerState.waiting } ∧
    demoMid.pool.fetch ≠ Fetch.undefined ∧
    ∃ s1 s2, workerStep demoMid 0 = some s1 ∧ s1.pool.tasks = [] ∧
      s1.pool.task_queue_size = 0 ∧
      workerStep s1 0 = some s2 ∧ s2.invoked = demoMid.invoked ++ [(0, 12)] := by
  have h := worker_locked_block demoMid 0 { i := 0, pc := WorkerState.waiting } rfl rfl
  obtain ⟨s1, s2, h1, h2, -, -, h3, -, -, h4, h5, -⟩ := h.2.2.2.2.1 12 [] rfl
  exact ⟨rfl, h.2.2.2.2.2.1, s1, s2, h1, h2, by rw [h3 (by decide) (by decide)]; rfl, h4, h5⟩

/-- Claim C10 at `zeroMid`: no worker, both accepted tasks are queued and
none was run. -/
theorem zero_workers_never_run_witness :
    Reachable 0 zeroMid ∧ zeroMid.invoked = [] ∧ zeroMid.pool.tasks = zeroMid.accepted ∧
    workerStep zeroMid 0 = none :=
  ⟨zeroMid_reachable, (zero_workers_never_run zeroMid zeroMid_reachable).2.2.2.1,
    (zero_workers_never_run zeroMid zeroMid_reachable).2.2.2.2.1,
    (zero_workers_never_run zeroMid zeroMid_reachable).2.2.2.2.2.1 0⟩

end ThreadPoolModel
